import Mathlib

/-!
Verification development for the AAP MCP server repository.

The shallow embedding below translates the TypeScript sources into Lean:

* `extract-tools.ts` (normalizeBoolean, shouldIncludeOperationForMcp,
  titleCase, generateOperationId, mapOpenApiSchemaToJsonSchema,
  generateInputSchemaAndDetails, extractToolsFromApi);
* the server entry point (filterToolsByCategory, generateTools,
  storeSessionData / mcpPostHandler category resolution, and the
  ListTools / CallTool request handlers).

Modelling conventions:

* JavaScript strings are modelled by Lean `String`; `.length`,
  `.trim()`, `.toLowerCase()` etc. are modelled by the corresponding
  Lean operations (faithful for the ASCII data the claims are about).
* Loosely typed extension values (`x-mcp`) are modelled by `XVal`:
  a native boolean, a string, any other present value, or absent.
* The JavaScript object heap for schema graphs is modelled by an
  explicit arena of nodes indexed by `Nat` ids, so that object
  identity (used by the translator's cycle detection) is the identity
  of ids.  A cyclic object graph is an arena whose nodes point back
  into the arena.
* Side effects that do not change results (console warnings, CSV
  export) are dropped.
-/

namespace AapMcp

/-- Severity of a tool diagnostic (`McpToolLogEntry.severity`). -/
inductive Severity where
  | info
  | warn
  | err
deriving DecidableEq, Repr

/-- One diagnostic entry attached to a compiled tool (`McpToolLogEntry`). -/
structure McpToolLogEntry where
  severity : Severity
  msg : String
deriving DecidableEq, Repr

/-- A loosely typed JavaScript extension value as seen by `normalizeBoolean`:
a native boolean, a string, some other present value (number, object, ...),
or absent (`undefined`). -/
inductive XVal where
  | bool (b : Bool)
  | str (s : String)
  | other
  | absent
deriving DecidableEq, Repr

/-- `toLowerCase()`, modelled character-wise. -/
def strToLower (s : String) : String := ⟨s.data.map Char.toLower⟩

/-- `toUpperCase()`, modelled character-wise. -/
def strToUpper (s : String) : String := ⟨s.data.map Char.toUpper⟩

/-- `trim()`: strip leading and trailing whitespace. -/
def strTrim (s : String) : String :=
  ⟨(((s.data.dropWhile Char.isWhitespace).reverse.dropWhile
      Char.isWhitespace).reverse)⟩

/-- `split("\n\n")` on a character list: pieces delimited by a blank line. -/
def splitOnDoubleNewline : List Char → List (List Char)
  | '\n' :: '\n' :: rest => [] :: splitOnDoubleNewline rest
  | c :: rest =>
    match splitOnDoubleNewline rest with
    | [] => [[c]]
    | h :: t => (c :: h) :: t
  | [] => [[]]

/-- `split(sep)` for a one-character separator. -/
def splitOnChar (sep : Char) : List Char → List (List Char)
  | [] => [[]]
  | c :: rest =>
    if c = sep then [] :: splitOnChar sep rest
    else
      match splitOnChar sep rest with
      | [] => [[c]]
      | h :: t => (c :: h) :: t

/-- Embeds `normalizeBoolean` from `extract-tools.ts`: native booleans pass
through; strings are trimmed and lower-cased and matched against the two
word lists; anything else is undetermined (`undefined`). -/
def normalizeBoolean : XVal → Option Bool
  | .bool b => some b
  | .str s =>
    let normalized := strToLower (strTrim s)
    if ["true", "1", "yes", "on"].contains normalized then some true
    else if ["false", "0", "no", "off"].contains normalized then some false
    else none
  | .other => none
  | .absent => none

/-- The `type` field of a schema node: either a single string or an array of
strings (JavaScript `string | string[]`). -/
inductive TypeField where
  | s (v : String)
  | l (v : List String)
deriving DecidableEq, Repr

/-- A value position in a schema graph: either a boolean schema literal or a
pointer (object identity) to a node of the arena. -/
inductive SchemaVal where
  | b (v : Bool)
  | node (id : Nat)
deriving DecidableEq, Repr

/-- One OpenAPI schema-dialect node of the object graph.  `ref` is set when
the object carries a `$ref` key.  Vendor-only keys that the translator
deletes unconditionally (`example`, `xml`, `externalDocs`, `deprecated`,
`readOnly`, `writeOnly`) are not modelled because no claim observes them;
`nullable` is modelled because the translator folds it into the type. -/
structure SchemaNode where
  ref : Option String := none
  type : Option TypeField := none
  nullable : Bool := false
  title : Option String := none
  description : Option String := none
  properties : Option (List (String × SchemaVal)) := none
  items : Option SchemaVal := none
deriving DecidableEq, Repr

/-- The object heap holding schema nodes, indexed by identity. -/
abbrev SchemaArena := List (Nat × SchemaNode)

/-- A generic JSON-Schema node produced by the translator.  `raw id` stands
for an original (untranslated) node object carried over verbatim by the
spread copy when the recursion conditions do not fire. -/
inductive JsonSchema where
  | b (v : Bool)
  | raw (id : Nat)
  | obj (type : Option TypeField) (title : Option String)
      (description : Option String)
      (properties : Option (List (String × JsonSchema)))
      (items : Option JsonSchema)
      (required : Option (List String))
deriving Repr

/-- The generic open-object schema `{ type: "object" }` substituted at cycle
points and for unresolved references. -/
def genericObject : JsonSchema :=
  .obj (some (.s "object")) none none none none none

/-- Folds `nullable: true` into the copied type field, as the translator
does: arrays gain `"null"` when missing, a single string becomes a
two-element union, an absent type becomes `"null"`. -/
def foldNullable : Option TypeField → Option TypeField
  | some (.l ls) => some (.l (if ls.contains "null" then ls else ls ++ ["null"]))
  | some (.s t) => some (.l [t, "null"])
  | none => some (.s "null")

/-- A child value copied over without translation (the spread copy keeps the
original reference). -/
def rawChild : SchemaVal → JsonSchema
  | .b v => .b v
  | .node id => .raw id

/-- Number of arena node ids not yet on the active recursion path; the
termination measure of the translator. -/
def seenMeasure (arena : SchemaArena) (seen : List Nat) : Nat :=
  (arena.map Prod.fst).countP (fun i => decide (i ∉ seen))

/-- A successful arena lookup means the id occurs among the arena's keys. -/
def lookup_some_mem_keys {arena : SchemaArena} {i : Nat} {n : SchemaNode}
    (h : arena.lookup i = some n) : i ∈ arena.map Prod.fst := by
  induction arena with
  | nil => simp [List.lookup] at h
  | cons hd tl ih =>
    simp only [List.lookup] at h
    by_cases hi : i = hd.fst
    · simp [hi]
    · have : (i == hd.fst) = false := by simp [hi]
      rw [this] at h
      simp only [List.map_cons, List.mem_cons]
      exact Or.inr (ih h)

/-- Strict decrease of `countP` when one element stops satisfying the
predicate while the predicate only gets stronger elsewhere. -/
def countP_lt_of_mem {α : Type} {l : List α} {p q : α → Bool}
    (himp : ∀ x ∈ l, q x = true → p x = true) {i : α}
    (hi : i ∈ l) (hpi : p i = true) (hqi : q i = false) :
    l.countP q < l.countP p := by
  induction l with
  | nil => cases hi
  | cons a t ih =>
    rcases List.mem_cons.mp hi with rfl | hmem
    · have hle : t.countP q ≤ t.countP p :=
        List.countP_mono_left (fun x hx => himp x (List.mem_cons_of_mem _ hx))
      simp only [List.countP_cons, hpi, hqi]
      simp only [if_true]
      simp only [show (false = true) = False by simp, if_false]
      omega
    · have hih := ih (fun x hx => himp x (List.mem_cons_of_mem _ hx)) hmem
      simp only [List.countP_cons]
      by_cases hqa : q a = true
      · have hpa : p a = true := himp a (List.mem_cons_self a t) hqa
        simp only [hqa, hpa, if_true]
        omega
      · simp only [Bool.not_eq_true] at hqa
        simp only [hqa, show (false = true) = False by simp, if_false]
        by_cases hpa : p a = true
        · simp only [hpa, if_true]; omega
        · simp only [Bool.not_eq_true] at hpa
          simp only [hpa, show (false = true) = False by simp, if_false]
          omega

/-- The measure strictly decreases when a fresh arena node is pushed onto
the recursion path. -/
def seenMeasure_cons_lt {arena : SchemaArena} {seen : List Nat} {i : Nat}
    (hmem : i ∈ arena.map Prod.fst) (hnotmem : i ∉ seen) :
    seenMeasure arena (i :: seen) < seenMeasure arena seen := by
  apply countP_lt_of_mem (i := i)
  · intro x _ hx
    simp only [decide_eq_true_eq, List.mem_cons, not_or] at hx
    simp only [decide_eq_true_eq]
    exact hx.2
  · exact hmem
  · simp [hnotmem]
  · simp

mutual

/-- Embeds `mapOpenApiSchemaToJsonSchema` from `extract-tools.ts` over the
arena heap model.  `seen` is the set of node ids on the active recursion
path (the JavaScript `WeakSet` combined with the `finally` delete).  A
`$ref` node and a node already on the path both yield the generic object
schema; otherwise the node is copied, `integer` becomes `number`,
`nullable` is folded into the type, and properties / items are translated
recursively exactly under the source's conditions. -/
def mapOpenApiSchemaToJsonSchema (arena : SchemaArena) (seen : List Nat) :
    SchemaVal → JsonSchema
  | .b v => .b v
  | .node i =>
    match harena : arena.lookup i with
    | none => .raw i
    | some n =>
      if n.ref.isSome then genericObject
      else if hseen : i ∈ seen then genericObject
      else
        let ty0 := if n.type = some (.s "integer") then some (.s "number") else n.type
        let ty1 := if n.nullable then foldNullable ty0 else ty0
        let props :=
          match n.properties with
          | none => none
          | some ps =>
            if ty1 = some (.s "object") then some (mapProps arena (i :: seen) ps)
            else some (ps.map (fun kv => (kv.1, rawChild kv.2)))
        let items :=
          match n.items with
          | none => none
          | some (.b v) => some (JsonSchema.b v)
          | some (.node j) =>
            if ty1 = some (.s "array") then
              some (mapOpenApiSchemaToJsonSchema arena (i :: seen) (.node j))
            else some (.raw j)
        .obj ty1 n.title n.description props items none
termination_by v => (seenMeasure arena seen, 0)
decreasing_by
  all_goals simp_wf
  all_goals
    apply Prod.Lex.left
    exact seenMeasure_cons_lt (lookup_some_mem_keys harena) hseen

/-- Translates the property list of an object node, each child against the
extended recursion path. -/
def mapProps (arena : SchemaArena) (seen : List Nat) :
    List (String × SchemaVal) → List (String × JsonSchema)
  | [] => []
  | (k, v) :: rest =>
    (k, mapOpenApiSchemaToJsonSchema arena seen v) :: mapProps arena seen rest
termination_by l => (seenMeasure arena seen, l.length + 1)
decreasing_by
  all_goals simp_wf
  all_goals apply Prod.Lex.right
  all_goals omega

end

/-- JavaScript truthiness of an optional string (`undefined` and `""` are
falsy). -/
def strTruthy : Option String → Bool
  | some s => s ≠ ""
  | none => false

/-- A line terminator, which the JavaScript regex `.` does not match. -/
def isLineTerminator (c : Char) : Bool :=
  c = '\n' || c = '\r' || c = ' ' || c = ' '

/-- Embeds the global replace `/[-_\/](.)/g` of `titleCase`: a separator
followed by a matchable character is replaced by that character upper-cased,
and scanning resumes after the consumed pair. -/
def titleRepl : List Char → List Char
  | [] => []
  | [c] => [c]
  | c :: d :: rest =>
    if c = '-' || c = '_' || c = '/' then
      if isLineTerminator d then c :: titleRepl (d :: rest)
      else d.toUpper :: titleRepl rest
    else c :: titleRepl (d :: rest)

/-- `replace(/^\x7b/, "")`: drop one leading opening brace. -/
def stripLeadingBrace : List Char → List Char
  | [] => []
  | c :: rest => if c = '\x7b' then rest else c :: rest

/-- `replace(/\x7d$/, "")`: drop one trailing closing brace. -/
def stripTrailingBrace (l : List Char) : List Char :=
  match l.getLast? with
  | some c => if c = '\x7d' then l.dropLast else l
  | none => []

/-- `replace(/^./, toUpperCase)`: upper-case the first character when the
regex `.` can match it. -/
def capitalizeFirst : List Char → List Char
  | [] => []
  | c :: rest => if isLineTerminator c then c :: rest else c.toUpper :: rest

/-- Embeds `titleCase` from `extract-tools.ts`: lower-case, collapse
separators while capitalizing their following character, strip surrounding
braces of path parameters, capitalize the first character. -/
def titleCase (s : String) : String :=
  ⟨capitalizeFirst (stripTrailingBrace (stripLeadingBrace
    (titleRepl (s.data.map Char.toLower))))⟩

/-- `path.split("/").filter((p) => p)`: the non-empty path segments. -/
def pathParts (path : String) : List String :=
  ((splitOnChar '/' path.data).map
    (fun l => (⟨l⟩ : String))).filter (fun p => p ≠ "")

/-- A segment delimited by braces is a path parameter
(`startsWith("\x7b") && endsWith("\x7d")`). -/
def isParamSegment (part : String) : Bool :=
  (part.data.head? == some '\x7b') && (part.data.getLast? == some '\x7d')

/-- Embeds `generateOperationId`: starts from the lower-cased method and
appends, per segment, its title-cased form — except parameter segments,
which contribute a `By` suffix only in final position and nothing
otherwise. -/
def generateOperationId (method path : String) : String :=
  let parts := pathParts path
  parts.enum.foldl
    (fun name ip =>
      if isParamSegment ip.2 then
        if ip.1 = parts.length - 1 then name ++ "By" ++ titleCase ip.2 else name
      else name ++ titleCase ip.2)
    (strToLower method)

/-- The MCP name alphabet `[a-zA-Z0-9_-]` of the sanitizing regex. -/
def isAllowedChar (c : Char) : Bool :=
  ('a' ≤ c && c ≤ 'z') || ('A' ≤ c && c ≤ 'Z') || ('0' ≤ c && c ≤ '9') ||
    c = '_' || c = '-'

/-- First sanitizing step `replace(/\./g, "_")`. -/
def dotToUnderscore (c : Char) : Char := if c = '.' then '_' else c

/-- Second sanitizing step `replace(/[^a-z0-9_-]/gi, "_")`. -/
def underscoreDisallowed (c : Char) : Char := if isAllowedChar c then c else '_'

/-- The two-step name sanitization applied to the base name in
`extractToolsFromApi`. -/
def sanitizeName (s : String) : String :=
  ⟨(s.data.map dotToUnderscore).map underscoreDisallowed⟩

/-- Decimal digit characters, for the collision counter rendering. -/
def digitChar (d : Nat) : Char :=
  if d = 0 then '0' else if d = 1 then '1' else if d = 2 then '2'
  else if d = 3 then '3' else if d = 4 then '4' else if d = 5 then '5'
  else if d = 6 then '6' else if d = 7 then '7' else if d = 8 then '8'
  else '9'

/-- Digits of `n` in base ten, most significant first (empty for zero). -/
def decimalDigits (n : Nat) : List Char :=
  if h : n = 0 then []
  else decimalDigits (n / 10) ++ [digitChar (n % 10)]
termination_by n
decreasing_by
  exact Nat.div_lt_self (Nat.pos_of_ne_zero h) (by decide)

/-- Decimal rendering of a JavaScript number holding a natural, as produced
by the template literal of the collision loop. -/
def decimalString (n : Nat) : String :=
  if n = 0 then "0" else ⟨decimalDigits n⟩

/-- The collision loop's suffix step strictly lengthens the candidate. -/
def uniquify_step_length (cand : String) (k : Nat) :
    cand.length < (cand ++ "_" ++ decimalString k).length := by
  have h1 : (cand ++ "_" ++ decimalString k).length
      = cand.length + ("_" : String).length + (decimalString k).length := by
    simp [String.length_append]
  have h2 : ("_" : String).length = 1 := by decide
  omega

/-- Embeds the collision loop of `extractToolsFromApi`:
`while (usedNames.has(nameCandidate)) nameCandidate += "_" + counter++`. -/
def uniquifyName (used : List String) (cand : String) (counter : Nat) :
    String :=
  if h : cand ∈ used then
    uniquifyName used (cand ++ "_" ++ decimalString counter) (counter + 1)
  else cand
termination_by used.countP (fun s => decide (cand.length ≤ s.length))
decreasing_by
  exact countP_lt_of_mem
    (fun x _ hx => by
      simp only [decide_eq_true_eq] at hx ⊢
      have := uniquify_step_length cand counter
      omega)
    h (by simp)
    (by
      simp only [decide_eq_false_iff_not, not_le]
      exact uniquify_step_length cand counter)

/-- An OpenAPI parameter object (`ParameterObject`); `location` models the
source field `in`. -/
structure Param where
  name : String
  location : String
  required : Bool := false
  schema : Option SchemaVal := none
  description : Option String := none
deriving DecidableEq, Repr

/-- The `security` field of an operation as JavaScript sees it: absent
(`undefined`), explicitly `null`, or an array of requirement objects
(abstracted to opaque strings, since no claim looks inside them). -/
inductive SecurityField where
  | undef
  | null
  | arr (reqs : List String)
deriving DecidableEq, Repr

/-- A request body (`RequestBodyObject`): optional description, required
flag, and a content map from media type to the media object's optional
schema. -/
structure RequestBody where
  description : Option String := none
  required : Bool := false
  content : Option (List (String × Option SchemaVal)) := none
deriving DecidableEq, Repr

/-- A raw operation record as found in a path item, before the
`AAPOperationObject` constructor normalizes it. -/
structure RawOperation where
  xMcp : XVal := .absent
  operationId : Option String := none
  summary : Option String := none
  description : Option String := none
  xAiDescription : Option String := none
  deprecated : Option Bool := none
  security : SecurityField := .undef
  parameters : Option (List Param) := none
  requestBody : Option RequestBody := none
deriving DecidableEq, Repr

/-- The normalized operation produced by the `AAPOperationObject`
constructor: the AI description is defaulted to the empty string and the
deprecation flag to `false`. -/
structure AAPOperationObject where
  xMcp : XVal
  operationId : Option String
  summary : Option String
  description : Option String
  xAiDescription : String
  deprecated : Bool
  security : SecurityField
  parameters : Option (List Param)
  requestBody : Option RequestBody
deriving DecidableEq, Repr

/-- Embeds `new AAPOperationObject(rawOperation)`. -/
def mkAAPOperationObject (raw : RawOperation) : AAPOperationObject :=
  { xMcp := raw.xMcp
    operationId := raw.operationId
    summary := raw.summary
    description := raw.description
    xAiDescription := raw.xAiDescription.getD ""
    deprecated := raw.deprecated.getD false
    security := raw.security
    parameters := raw.parameters
    requestBody := raw.requestBody }

/-- A path item: its own `x-mcp` extension, path-level parameters, and the
operations keyed by HTTP method name. -/
structure PathItem where
  xMcp : XVal := .absent
  parameters : Option (List Param) := none
  operations : List (String × RawOperation) := []

/-- An OpenAPI document: root `x-mcp` extension, global security, and the
paths map. -/
structure ApiDocument where
  xMcp : XVal := .absent
  security : Option (List String) := none
  paths : List (String × Option PathItem) := []

/-- The iteration order of `Object.values(OpenAPIV3.HttpMethods)`. -/
def httpMethods : List String :=
  ["get", "put", "post", "delete", "options", "head", "patch", "trace"]

/-- Embeds `shouldIncludeOperationForMcp`: operation-level value first, then
path level, then root level, then the default; a level decides only when
`normalizeBoolean` yields a boolean. -/
def shouldIncludeOperationForMcp (api : ApiDocument) (pathItem : PathItem)
    (operation : AAPOperationObject) (defaultInclude : Bool := true) : Bool :=
  match normalizeBoolean operation.xMcp with
  | some b => b
  | none =>
    match normalizeBoolean pathItem.xMcp with
    | some b => b
    | none =>
      match normalizeBoolean api.xMcp with
      | some b => b
      | none => defaultInclude

/-- Embeds the merge loop of `generateInputSchemaAndDetails`: iterate the
concatenation `operationParameters.concat(pathParametersResolved)`, and for
each entry either overwrite the accumulated entry with the same
name+location or append. -/
def mergeParameters (opParams pathParams : List Param) : List Param :=
  (opParams ++ pathParams).foldl
    (fun acc p =>
      match acc.findIdx? (fun q => q.name == p.name && q.location == p.location) with
      | some i => acc.set i p
      | none => acc ++ [p])
    []

/-- JavaScript-object assignment `properties[k] = v`: overwrite in place if
the key exists, else append. -/
def setProp (props : List (String × JsonSchema)) (k : String)
    (v : JsonSchema) : List (String × JsonSchema) :=
  if (props.map Prod.fst).contains k then
    props.map (fun kv => if kv.1 = k then (k, v) else kv)
  else props ++ [(k, v)]

/-- `paramSchema.description = param.description || paramSchema.description`
(applied only to object schemas, as the `typeof` guard does). -/
def withParamDescription (js : JsonSchema) (d : Option String) : JsonSchema :=
  match js with
  | .obj ty ti desc props items req =>
    .obj ty ti (if strTruthy d then d else desc) props items req
  | other => other

/-- `bodySchema.description = opRequestBody.description ||
bodySchema.description || "The JSON request body."` (object schemas only). -/
def withBodyDescription (js : JsonSchema) (d : Option String) : JsonSchema :=
  match js with
  | .obj ty ti desc props items req =>
    .obj ty ti
      (if strTruthy d then d
       else if strTruthy desc then desc
       else some "The JSON request body.") props items req
  | other => other

/-- JavaScript truthiness of a schema value (`false` is falsy, objects are
truthy). -/
def schemaValTruthy : SchemaVal → Bool
  | .b b => b
  | .node _ => true

/-- The description of a translated schema as the missing-description check
reads it (booleans are filtered out by the `typeof` guard; `raw` carries an
original node object and never occurs at top level of `properties`). -/
def jsonSchemaDescription : JsonSchema → Option String
  | .obj _ _ d _ _ _ => d
  | _ => none

/-- Whether a property entry counts as "object with no description" in the
missing-description diagnostic (`p && typeof p === "object" &&
!p.description`). -/
def propMissingDescription : JsonSchema → Bool
  | .b _ => false
  | js => !strTruthy (jsonSchemaDescription js)

/-- The result record of `generateInputSchemaAndDetails`. -/
structure InputSchemaDetails where
  inputSchema : JsonSchema
  parameters : List Param
  requestBodyContentType : Option String

/-- Embeds `generateInputSchemaAndDetails`: merge the parameter lists,
translate each named parameter schema into a property (collecting required
names), then process the request body, preferring an `application/json`
schema and falling back to an opaque string property for any other sole
content type. -/
def generateInputSchemaAndDetails (arena : SchemaArena)
    (operation : AAPOperationObject) (pathParameters : Option (List Param)) :
    InputSchemaDetails :=
  let operationParameters := operation.parameters.getD []
  let pathParametersResolved := pathParameters.getD []
  let allParameters := mergeParameters operationParameters pathParametersResolved
  let step := allParameters.foldl
    (fun (acc : List (String × JsonSchema) × List String) p =>
      if p.name = "" then acc
      else
        match p.schema with
        | none => acc
        | some sv =>
          let paramSchema :=
            withParamDescription (mapOpenApiSchemaToJsonSchema arena [] sv)
              p.description
          (setProp acc.1 p.name paramSchema,
           if p.required then acc.2 ++ [p.name] else acc.2))
    ([], [])
  let afterBody :=
    match operation.requestBody with
    | none => (step.1, step.2, (none : Option String))
    | some rb =>
      let jsonContent :=
        match rb.content with
        | none => none
        | some entries => entries.lookup "application/json"
      let firstContent :=
        match rb.content with
        | none => none
        | some entries => entries.head?
      match jsonContent with
      | some (some sv) =>
        if schemaValTruthy sv then
          let bodySchema :=
            withBodyDescription (mapOpenApiSchemaToJsonSchema arena [] sv)
              rb.description
          (setProp step.1 "requestBody" bodySchema,
           if rb.required then step.2 ++ ["requestBody"] else step.2,
           some "application/json")
        else
          match firstContent with
          | some (contentType, _) =>
            (setProp step.1 "requestBody"
              (.obj (some (.s "string")) none
                (some (if strTruthy rb.description then rb.description.getD ""
                  else "Request body (content type: " ++ contentType ++ ")"))
                none none none),
             if rb.required then step.2 ++ ["requestBody"] else step.2,
             some contentType)
          | none => (step.1, step.2, none)
      | _ =>
        match firstContent with
        | some (contentType, _) =>
          (setProp step.1 "requestBody"
            (.obj (some (.s "string")) none
              (some (if strTruthy rb.description then rb.description.getD ""
                else "Request body (content type: " ++ contentType ++ ")"))
              none none none),
           if rb.required then step.2 ++ ["requestBody"] else step.2,
           some contentType)
        | none => (step.1, step.2, none)
  { inputSchema :=
      .obj (some (.s "object")) none none (some afterBody.1) none
        (if afterBody.2.1.length > 0 then some afterBody.2.1 else none)
    parameters := allParameters
    requestBodyContentType := afterBody.2.2 }

/-- A compiled tool (`AAPMcpToolDefinition`). -/
structure AAPMcpToolDefinition where
  name : String
  description : String
  inputSchema : JsonSchema
  method : String
  pathTemplate : String
  parameters : List Param
  executionParameters : List (String × String)
  requestBodyContentType : Option String
  securityRequirements : List String
  operationId : String
  deprecated : Bool
  logs : List McpToolLogEntry
  service : Option String := none
  size : Option Nat := none

/-- Embeds the security-requirement resolution of `extractToolsFromApi`:
`operation.security === null ? globalSecurity : operation.security ||
globalSecurity`.  A present array — the empty array included — is truthy in
JavaScript, so only `null` and `undefined` fall back to the global list. -/
def resolveSecurity (opSec : SecurityField) (globalSec : List String) :
    List String :=
  match opSec with
  | .null => globalSec
  | .undef => globalSec
  | .arr l => l

/-- The description resolution of `extractToolsFromApi`:
`operation["x-ai-description"] || operation.summary ||
(operation.description ? operation.description?.trim().split("\n\n")[0] :
"")`. -/
def resolveToolDescription (ai : String) (summary descr : Option String) :
    String :=
  if ai ≠ "" then ai
  else if strTruthy summary then summary.getD ""
  else
    match descr with
    | some d =>
      if d ≠ "" then
        (⟨(splitOnDoubleNewline (strTrim d).data).headD []⟩ : String)
      else ""
    | none => ""

/-- Embeds the body of the per-operation loop of `extractToolsFromApi`.
Returns `none` when the operation is excluded (the `continue` paths) and
otherwise the compiled tool together with the updated used-name set.  The
`try/catch` around the inclusion resolver is not modelled: the embedded
resolver is total, so the catch branch is unreachable. -/
def compileOperation (arena : SchemaArena) (api : ApiDocument)
    (defaultInclude : Bool) (used : List String) (path : String)
    (pathItem : PathItem) (method : String) (raw : RawOperation) :
    Option (AAPMcpToolDefinition × List String) :=
  let operation := mkAAPOperationObject raw
  if !shouldIncludeOperationForMcp api pathItem operation defaultInclude then
    none
  else
    let logs1 :=
      if !strTruthy operation.operationId then
        [⟨Severity.warn, "no operationId key available"⟩]
      else []
    let originalBaseName :=
      if strTruthy operation.operationId then operation.operationId.getD ""
      else generateOperationId method path
    if originalBaseName = "" then none
    else
      let nameCandidate := uniquifyName used (sanitizeName originalBaseName) 1
      let logs2 := logs1 ++
        (if originalBaseName ≠ nameCandidate then
          [⟨Severity.warn, "name was transformed from " ++ originalBaseName⟩]
         else [])
      let logs3 := logs2 ++
        (if !strTruthy operation.description then
          [⟨Severity.warn, "no description in OpenAPI schema"⟩]
         else [])
      let logs4 := logs3 ++
        (if !strTruthy operation.summary then
          [⟨Severity.info, "no summary in OpenAPI schema"⟩]
         else [])
      let logs5 := logs4 ++
        (if operation.xAiDescription.length = 0 then
          [⟨Severity.err, "no `x-ai-description` field"⟩]
         else [])
      let logs6 := logs5 ++
        (if operation.xAiDescription.length > 300 then
          [⟨Severity.err, "x-ai-description is too long (>300 chars)"⟩]
         else [])
      let description :=
        resolveToolDescription operation.xAiDescription operation.summary
          operation.description
      let details := generateInputSchemaAndDetails arena operation
        pathItem.parameters
      let logs7 := logs6 ++
        (match details.inputSchema with
         | .obj _ _ _ (some props) _ _ =>
           if (props.filter (fun kv => propMissingDescription kv.2)).length ≠ 0 then
             [⟨Severity.err, "has parameter(s) with no `description` key"⟩]
           else []
         | _ => [])
      some
        ({ name := nameCandidate
           description := description
           inputSchema := details.inputSchema
           method := method
           pathTemplate := path
           parameters := details.parameters
           executionParameters :=
             details.parameters.map (fun p => (p.name, p.location))
           requestBodyContentType := details.requestBodyContentType
           securityRequirements :=
             resolveSecurity operation.security (api.security.getD [])
           operationId := originalBaseName
           deprecated := operation.deprecated
           logs := logs7 },
         nameCandidate :: used)

/-- The (path, path item, method, operation) tuples visited by the nested
loops of `extractToolsFromApi`, in iteration order. -/
def docOperations (api : ApiDocument) :
    List (String × PathItem × String × RawOperation) :=
  (api.paths.filterMap
    (fun ppi =>
      ppi.2.map (fun pi =>
        httpMethods.filterMap
          (fun m => (pi.operations.lookup m).map (fun op => (ppi.1, pi, m, op)))))).flatten

/-- The extraction fold over the document's operations, threading the
used-name set. -/
def extractGo (arena : SchemaArena) (api : ApiDocument)
    (defaultInclude : Bool) :
    List (String × PathItem × String × RawOperation) → List String →
    List AAPMcpToolDefinition
  | [], _ => []
  | e :: rest, used =>
    match compileOperation arena api defaultInclude used e.1 e.2.1 e.2.2.1
        e.2.2.2 with
    | none => extractGo arena api defaultInclude rest used
    | some (t, used') => t :: extractGo arena api defaultInclude rest used'

/-- Embeds `extractToolsFromApi`: compile every eligible operation of the
document, starting from an empty used-name set. -/
def extractToolsFromApi (arena : SchemaArena) (api : ApiDocument)
    (defaultInclude : Bool := true) : List AAPMcpToolDefinition :=
  extractGo arena api defaultInclude (docOperations api) []

/-- Hexadecimal digit characters for JSON control-character escapes. -/
def hexDigit : Nat → Char
  | 0 => '0' | 1 => '1' | 2 => '2' | 3 => '3' | 4 => '4' | 5 => '5'
  | 6 => '6' | 7 => '7' | 8 => '8' | 9 => '9' | 10 => 'a' | 11 => 'b'
  | 12 => 'c' | 13 => 'd' | 14 => 'e' | _ => 'f'

/-- The escape of one character inside a JSON string literal, as
`JSON.stringify` produces it. -/
def jsonEscapeChar (c : Char) : List Char :=
  if c = '"' then ['\\', '"']
  else if c = '\\' then ['\\', '\\']
  else if c = '\n' then ['\\', 'n']
  else if c = '\r' then ['\\', 'r']
  else if c = '\t' then ['\\', 't']
  else if c = '\x08' then ['\\', 'b']
  else if c = '\x0c' then ['\\', 'f']
  else if c.toNat < 32 then
    ['\\', 'u', '0', '0', hexDigit (c.toNat / 16), hexDigit (c.toNat % 16)]
  else [c]

/-- A JSON string literal for `s`. -/
def jsonQuote (s : String) : String :=
  "\"" ++ ⟨(s.data.map jsonEscapeChar).flatten⟩ ++ "\""

/-- Comma-separated concatenation. -/
def commaJoin : List String → String
  | [] => ""
  | [s] => s
  | s :: rest => s ++ "," ++ commaJoin rest

/-- Serialization of a `type` field value. -/
def serializeTypeField : TypeField → String
  | .s v => jsonQuote v
  | .l vs => "[" ++ commaJoin (vs.map jsonQuote) ++ "]"

mutual

/-- `JSON.stringify` of a translated schema.  Keys are emitted in a fixed
order; `JSON.stringify` emits insertion order instead, but the claims only
observe the length of the output, which key order does not affect.  A `raw`
node (an untranslated carried-over object) is serialized as an empty
object; it does not occur in catalogs built from realistic documents. -/
def serializeJsonSchema : JsonSchema → String
  | .b true => "true"
  | .b false => "false"
  | .raw _ => "\x7b\x7d"
  | .obj ty ti desc props items req =>
    let tyF := match ty with
      | none => none
      | some t => some (jsonQuote "type" ++ ":" ++ serializeTypeField t)
    let tiF := match ti with
      | none => none
      | some t => some (jsonQuote "title" ++ ":" ++ jsonQuote t)
    let descF := match desc with
      | none => none
      | some d => some (jsonQuote "description" ++ ":" ++ jsonQuote d)
    let propsF := match props with
      | none => none
      | some ps =>
        some (jsonQuote "properties" ++ ":" ++ "\x7b" ++
          commaJoin (serializeProps ps) ++ "\x7d")
    let itemsF := match items with
      | none => none
      | some it => some (jsonQuote "items" ++ ":" ++ serializeJsonSchema it)
    let reqF := match req with
      | none => none
      | some r =>
        some (jsonQuote "required" ++ ":" ++ "[" ++
          commaJoin (r.map jsonQuote) ++ "]")
    "\x7b" ++ commaJoin ([tyF, tiF, descF, propsF, itemsF, reqF].filterMap id) ++
      "\x7d"

/-- Serialization of the property entries of an object schema. -/
def serializeProps : List (String × JsonSchema) → List String
  | [] => []
  | (k, v) :: rest =>
    (jsonQuote k ++ ":" ++ serializeJsonSchema v) :: serializeProps rest

end

/-- The string whose length `generateTools` stores as the tool's size:
`JSON.stringify({name, description, inputSchema})`. -/
def toolSizeSerialization (t : AAPMcpToolDefinition) : String :=
  "\x7b" ++ jsonQuote "name" ++ ":" ++ jsonQuote t.name ++ "," ++
    jsonQuote "description" ++ ":" ++ jsonQuote t.description ++ "," ++
    jsonQuote "inputSchema" ++ ":" ++ serializeJsonSchema t.inputSchema ++
    "\x7d"

/-- The HTTP methods admitted by the write-access policy. -/
def allowedOperations (allowWriteOperations : Bool) : List String :=
  if allowWriteOperations then
    ["GET", "POST", "PUT", "PATCH", "DELETE", "HEAD", "OPTIONS"]
  else ["GET", "HEAD", "OPTIONS"]

/-- The per-service filter inside `generateTools`: stamp the service name on
each tool, drop tools whose method is not allowed by the policy, then apply
the service's `reformatFunc` predicate (supplied by the external OpenAPI
loader). -/
def serviceFilterTools (allowWrite : Bool) (service : String)
    (reformatFunc : AAPMcpToolDefinition → Bool)
    (tools : List AAPMcpToolDefinition) : List AAPMcpToolDefinition :=
  (tools.map (fun t => { t with service := some service })).filter
    (fun t =>
      (allowedOperations allowWrite).contains (strToUpper t.method) &&
        reformatFunc t)

/-- Embeds `generateTools` from the raw per-service tool lists on: filter
each service's list, concatenate, compute each tool's size as the length of
`JSON.stringify({name, description, inputSchema})`, and sort by size in
descending order. -/
def generateTools (allowWrite : Bool)
    (specs : List (String × (AAPMcpToolDefinition → Bool) ×
      List AAPMcpToolDefinition)) : List AAPMcpToolDefinition :=
  let rawToolList :=
    (specs.map (fun s => serviceFilterTools allowWrite s.1 s.2.1 s.2.2)).flatten
  let toolsWithSize := rawToolList.map
    (fun t => { t with size := some (toolSizeSerialization t).length })
  toolsWithSize.mergeSort (fun a b => decide (b.size.getD 0 ≤ a.size.getD 0))

/-- The full aggregated catalog: per-service extraction composed with
`generateTools` (spec loading, dereferencing and bundling happen upstream
of the embedded core). -/
def aggregatedCatalog (allowWrite : Bool)
    (docs : List (String × (AAPMcpToolDefinition → Bool) × SchemaArena ×
      ApiDocument)) : List AAPMcpToolDefinition :=
  generateTools allowWrite
    (docs.map (fun d => (d.1, d.2.1, extractToolsFromApi d.2.2.1 d.2.2.2 true)))

/-- The category map loaded from configuration (`aap-mcp.yaml`). -/
abbrev CategoryMap := List (String × List String)

/-- The tool-name selection of `filterToolsByCategory`: the flattened union
of all categories for the catchall `"all"`, otherwise the category's own
list — `none` when the category is not a key of the map (in JavaScript the
subsequent `.includes` would throw). -/
def toolsSelection? (cats : CategoryMap) (category : String) :
    Option (List String) :=
  if category = "all" then some ((cats.map Prod.snd).flatten)
  else cats.lookup category

/-- Embeds `filterToolsByCategory`: keep the tools whose names are in the
selection. -/
def filterToolsByCategory (tools : List AAPMcpToolDefinition)
    (cats : CategoryMap) (category : String) :
    Option (List AAPMcpToolDefinition) :=
  (toolsSelection? cats category).map
    (fun sel => tools.filter (fun t => sel.contains t.name))

/-- The tool lookup of the CallTool handler:
`allTools.find((t) => t.name === name)` — no category is consulted. -/
def findToolByName (tools : List AAPMcpToolDefinition) (name : String) :
    Option AAPMcpToolDefinition :=
  tools.find? (fun t => t.name == name)

/-- The per-session record held by the session registry (the transport
handle is not modelled). -/
structure SessionEntry where
  token : String
  userAgent : String
  category : String
deriving DecidableEq, Repr

/-- The process-wide `sessionData` map. -/
abbrev SessionRegistry := List (String × SessionEntry)

/-- Embeds `storeSessionData`: `sessionData[sessionId] = {...}`. -/
def storeSessionData (reg : SessionRegistry) (sessionId : String)
    (e : SessionEntry) : SessionRegistry :=
  (sessionId, e) :: reg.filter (fun p => p.1 ≠ sessionId)

/-- Session removal (`delete sessionData[sid]`, on transport close, DELETE
or shutdown). -/
def removeSessionData (reg : SessionRegistry) (sessionId : String) :
    SessionRegistry :=
  reg.filter (fun p => p.1 ≠ sessionId)

/-- The category resolution of `mcpPostHandler`:
`Object.keys(allCategories).includes(req.params.category) ?
req.params.category : "all"` (the route parameter may be absent). -/
def resolveRequestCategory (cats : CategoryMap) (requested : Option String) :
    String :=
  match requested with
  | some c => if (cats.map Prod.fst).contains c then c else "all"
  | none => "all"

/-- The session registries reachable by the server's mutations: starting
empty, sessions are stored only with a category resolved by
`resolveRequestCategory` and removed on close. -/
inductive ReachableRegistry (cats : CategoryMap) : SessionRegistry → Prop where
  | nil : ReachableRegistry cats []
  | store (reg : SessionRegistry) (sessionId token userAgent : String)
      (requested : Option String) :
      ReachableRegistry cats reg →
      ReachableRegistry cats (storeSessionData reg sessionId
        ⟨token, userAgent, resolveRequestCategory cats requested⟩)
  | close (reg : SessionRegistry) (sessionId : String) :
      ReachableRegistry cats reg →
      ReachableRegistry cats (removeSessionData reg sessionId)

/-! ### Claim-side definitions

The following definitions restate, in the words of the specification, the
properties that the refinement-style theorems compare against the embedded
source functions. -/

/-- Determinacy of one inclusion level, per the specification: a native
boolean, or a string whose trimmed lower-cased form is in one of the two
word sets; anything else is indeterminate. -/
def claimDeterminate : XVal → Option Bool
  | .bool b => some b
  | .str s =>
    if ["true", "1", "yes", "on"].contains (strToLower (strTrim s)) then
      some true
    else if ["false", "0", "no", "off"].contains (strToLower (strTrim s)) then
      some false
    else none
  | .other => none
  | .absent => none

/-- The specification's precedence rule: the first determinate value in
order, else the default. -/
def firstDeterminate : List XVal → Bool → Bool
  | [], d => d
  | v :: rest, d =>
    match claimDeterminate v with
    | some b => b
    | none => firstDeterminate rest d

/-- Plain concatenation of a list of strings. -/
def strConcatAll : List String → String
  | [] => ""
  | s :: rest => s ++ strConcatAll rest

/-- The specification's per-segment contribution to a generated operation
id: non-parameter segments contribute their title-cased form; a parameter
segment contributes a `By` suffix only in final position and nothing
otherwise. -/
def claimSegmentContribution (total : Nat) (i : Nat) (part : String) :
    String :=
  if isParamSegment part then
    if i = total - 1 then "By" ++ titleCase part else ""
  else titleCase part

/-- The specification's shape of a generated operation id: the lower-cased
method followed by the concatenated segment contributions. -/
def claimOperationId (method path : String) : String :=
  let parts := pathParts path
  strToLower method ++
    strConcatAll (parts.enum.map
      (fun ip => claimSegmentContribution parts.length ip.1 ip.2))

/-- The name alphabet and non-emptiness invariant claimed for tool names:
the name matches `[A-Za-z0-9_-]+`. -/
abbrev validToolName (s : String) : Prop :=
  s.data ≠ [] ∧ ∀ c ∈ s.data, isAllowedChar c = true

/-- A minimal tool record used by concrete witnesses. -/
def mkSimpleTool (name : String) : AAPMcpToolDefinition :=
  { name := name
    description := ""
    inputSchema := .b true
    method := "get"
    pathTemplate := "/"
    parameters := []
    executionParameters := []
    requestBodyContentType := none
    securityRequirements := []
    operationId := name
    deprecated := false
    logs := [] }

/-- A reformat predicate that keeps every tool, standing in for a service
configuration whose `reformatFunc` accepts everything. -/
def keepAllReformat : AAPMcpToolDefinition → Bool := fun _ => true

/-! ### Helper lemmas -/

/-- `normalizeBoolean` computes exactly the specification's determinacy
relation. -/
theorem normalizeBoolean_eq_claimDeterminate (v : XVal) :
    normalizeBoolean v = claimDeterminate v := by
  cases v <;> rfl

/-- String concatenation is associative. -/
theorem string_append_assoc (a b c : String) :
    (a ++ b) ++ c = a ++ (b ++ c) := by
  rw [String.ext_iff]
  simp [String.data_append, List.append_assoc]

/-- The empty string is right neutral. -/
theorem string_append_empty (a : String) : a ++ "" = a := by
  rw [String.ext_iff]
  simp [String.data_append]

/-- Folding `acc ++ f x` over a list from an initial string concatenates
the pieces after the initial string. -/
theorem foldl_append_eq_concatAll {α : Type} (f : α → String) :
    ∀ (l : List α) (init : String),
      l.foldl (fun acc x => acc ++ f x) init = init ++ strConcatAll (l.map f)
  | [], init => by
    simp only [List.foldl_nil, List.map_nil, strConcatAll]
    exact (string_append_empty init).symm
  | x :: rest, init => by
    simp only [List.foldl_cons, List.map_cons, strConcatAll]
    rw [foldl_append_eq_concatAll f rest (init ++ f x), string_append_assoc]

/-! ### Claim theorems -/

/-- C3: `shouldIncludeOperationForMcp` returns the first determinate value
in the order operation-level, path-level, root-level, else the default,
where a level is determinate exactly when it is a native boolean or a
string whose trimmed lower-cased form is one of the recognized true/false
words; any other present value is skipped. -/
theorem shouldInclude_is_firstDeterminate (api : ApiDocument)
    (pathItem : PathItem) (operation : AAPOperationObject)
    (defaultInclude : Bool) :
    shouldIncludeOperationForMcp api pathItem operation defaultInclude =
      firstDeterminate [operation.xMcp, pathItem.xMcp, api.xMcp]
        defaultInclude := by
  cases hop : claimDeterminate operation.xMcp <;>
    cases hpi : claimDeterminate pathItem.xMcp <;>
    cases hapi : claimDeterminate api.xMcp <;>
  simp [shouldIncludeOperationForMcp, firstDeterminate,
    normalizeBoolean_eq_claimDeterminate, hop, hpi, hapi]

/-- C6: the generated operation id is the lower-cased method followed by
the per-segment contributions (title-cased static segments; a `By` suffix
for a parameter segment only in final position; nothing for intermediate
parameter segments), and the sanitization maps every character outside
`[a-zA-Z0-9_-]` — dots included — to an underscore. -/
theorem generateOperationId_spec :
    (∀ method path, generateOperationId method path =
      claimOperationId method path) ∧
    (∀ s, sanitizeName s =
      ⟨s.data.map (fun c => if isAllowedChar c then c else '_')⟩) := by
  constructor
  · intro method path
    simp only [generateOperationId, claimOperationId]
    have hext : (pathParts path).enum.foldl
        (fun name ip =>
          if isParamSegment ip.2 = true then
            if ip.1 = (pathParts path).length - 1 then
              name ++ "By" ++ titleCase ip.2
            else name
          else name ++ titleCase ip.2)
        (strToLower method) =
        (pathParts path).enum.foldl
          (fun name ip =>
            name ++ claimSegmentContribution (pathParts path).length ip.1 ip.2)
          (strToLower method) := by
      apply List.foldl_ext
      intro a ip _
      simp only [claimSegmentContribution]
      by_cases hp : isParamSegment ip.2
      · by_cases hl : ip.1 = (pathParts path).length - 1
        · simp [hp, hl, string_append_assoc]
        · simp [hp, hl, string_append_empty]
      · simp [hp]
    rw [hext]
    exact foldl_append_eq_concatAll
      (fun ip : Nat × String =>
        claimSegmentContribution (pathParts path).length ip.1 ip.2)
      (pathParts path).enum (strToLower method)
  · intro s
    simp only [sanitizeName, List.map_map]
    congr 1
    apply List.map_congr_left
    intro c _
    simp only [Function.comp_apply, dotToUnderscore, underscoreDisallowed]
    by_cases h : c = '.'
    · subst h; simp [isAllowedChar]
    · simp [h]

/-- C4 (code defect, demonstrated at the failing input): when the
operation level and the path-item level both declare a parameter with the
same name and location, the compiled tool's merged parameter list keeps
the PATH-level entry, not the operation-level one.  The merge loop
iterates `operationParameters.concat(pathParametersResolved)` and
overwrites the accumulated entry on a key match, so the later path-level
occurrence replaces the earlier operation-level one — contradicting the
source's own comments ("Operation parameters override path parameters if
they have the same name/location"). -/
theorem mergeParameters_keeps_path_level :
    (generateInputSchemaAndDetails []
      (mkAAPOperationObject
        { parameters :=
            some [⟨"id", "path", true, none, some "operation level"⟩] })
      (some [⟨"id", "path", false, none, some "path level"⟩])).parameters =
      [⟨"id", "path", false, none, some "path level"⟩] := by
  rfl

/-- A key occurring among an association list's keys can be looked up. -/
theorem lookup_isSome_of_keys_contains {α β : Type} [BEq α] [LawfulBEq α]
    {l : List (α × β)} {a : α}
    (h : (l.map Prod.fst).contains a = true) : (l.lookup a).isSome = true := by
  induction l with
  | nil => simp at h
  | cons hd tl ih =>
    simp only [List.map_cons, List.contains_cons, Bool.or_eq_true] at h
    simp only [List.lookup]
    by_cases heq : (a == hd.fst) = true
    · simp [heq]
    · rcases h with h1 | h2
      · exact absurd h1 heq
      · simp only [Bool.not_eq_true] at heq
        simp only [heq]
        exact ih h2

/-- C1: for an active session whose category selection resolves (which the
registry invariant guarantees), the List operation returns exactly the
catalog tools whose names are in the session category's selection (the
union of all categories' names for the catchall), while the Call
operation resolves the tool by name in the full catalog, with no category
consulted — so a call to a tool outside the session's category still
succeeds when the tool exists in the catalog. -/
theorem list_filters_call_ignores_category
    (tools : List AAPMcpToolDefinition) (cats : CategoryMap)
    (category : String) (sel : List String) (n : String)
    (t : AAPMcpToolDefinition)
    (hsel : toolsSelection? cats category = some sel)
    (ht : t ∈ tools) (hn : t.name = n) :
    filterToolsByCategory tools cats category =
      some (tools.filter (fun u => sel.contains u.name)) ∧
    (∀ u, u ∈ tools.filter (fun u => sel.contains u.name) ↔
      u ∈ tools ∧ sel.contains u.name = true) ∧
    ∃ u, findToolByName tools n = some u ∧ u.name = n := by
  refine ⟨by simp [filterToolsByCategory, hsel], fun u => List.mem_filter, ?_⟩
  have hex : (tools.find? (fun u => u.name == n)).isSome = true := by
    rw [List.find?_isSome]
    exact ⟨t, ht, by simp [hn]⟩
  rcases Option.isSome_iff_exists.mp hex with ⟨u, hu⟩
  refine ⟨u, hu, ?_⟩
  have hp := List.find?_some hu
  simpa using hp

/-- C1 witness: a two-tool catalog and a session bound to category `c1`
containing only `a`; listing keeps exactly `a`, yet calling `b` — outside
the bound category — still resolves. -/
theorem list_filters_call_ignores_category_witness :
    filterToolsByCategory [mkSimpleTool "a", mkSimpleTool "b"]
      [("c1", ["a"])] "c1" = some [mkSimpleTool "a"] ∧
    (∃ u, findToolByName [mkSimpleTool "a", mkSimpleTool "b"] "b" = some u ∧
      u.name = "b") := by
  have h := list_filters_call_ignores_category
    [mkSimpleTool "a", mkSimpleTool "b"] [("c1", ["a"])] "c1" ["a"] "b"
    (mkSimpleTool "b") (by rfl)
    (List.mem_cons_of_mem _ (List.mem_cons_self _ _)) rfl
  exact ⟨by rw [h.1]; rfl, h.2.2⟩

/-- C10: every session stored in a reachable registry has a bound category
that is either the catchall `"all"` or a key of the configured category
map, so the List operation's selection lookup always succeeds for a
registered session. -/
theorem session_category_valid (cats : CategoryMap) (reg : SessionRegistry)
    (h : ReachableRegistry cats reg) :
    ∀ sid e, (sid, e) ∈ reg →
      (e.category = "all" ∨ (cats.map Prod.fst).contains e.category = true) ∧
      (toolsSelection? cats e.category).isSome = true := by
  induction h with
  | nil => intro sid e hmem; cases hmem
  | store reg sid' token ua requested hreach ih =>
    intro sid e hmem
    simp only [storeSessionData, List.mem_cons] at hmem
    rcases hmem with heq | hmem
    · have he : e = ⟨token, ua, resolveRequestCategory cats requested⟩ :=
        congrArg Prod.snd heq
      subst he
      have hgoal : (resolveRequestCategory cats requested = "all" ∨
          (cats.map Prod.fst).contains
            (resolveRequestCategory cats requested) = true) ∧
          (toolsSelection? cats
            (resolveRequestCategory cats requested)).isSome = true := by
        cases requested with
        | none =>
          exact ⟨Or.inl rfl, by simp [toolsSelection?, resolveRequestCategory]⟩
        | some c =>
          simp only [resolveRequestCategory]
          by_cases hc : (cats.map Prod.fst).contains c = true
          · rw [if_pos hc]
            refine ⟨Or.inr hc, ?_⟩
            simp only [toolsSelection?]
            by_cases hall : c = "all"
            · simp [hall]
            · simp only [hall, if_false]
              exact lookup_isSome_of_keys_contains hc
          · rw [if_neg hc]
            exact ⟨Or.inl rfl, by simp [toolsSelection?]⟩
      exact hgoal
    · exact ih sid e (List.mem_filter.mp hmem).1
  | close reg sid' hreach ih =>
    intro sid e hmem
    exact ih sid e (List.mem_filter.mp hmem).1

/-- C10 witness: a session initialized with an unknown requested category
is stored under the catchall, whose selection resolves, even though
`"all"` is not itself a key of the map. -/
theorem session_category_valid_witness :
    ((([("c1", ["a"])] : CategoryMap).map Prod.fst).contains "all" = false) ∧
    (toolsSelection? [("c1", ["a"])] "all").isSome = true := by
  constructor
  · decide
  · exact (session_category_valid [("c1", ["a"])] _
      (ReachableRegistry.store [] "s1" "tok" "ua" (some "nope")
        ReachableRegistry.nil) "s1"
      ⟨"tok", "ua", resolveRequestCategory [("c1", ["a"])] (some "nope")⟩
      (List.mem_cons_self _ _)).2

/-- A candidate not yet used is returned unchanged by the collision loop. -/
@[simp]
theorem uniquifyName_not_mem {used : List String} {cand : String}
    {counter : Nat} (h : cand ∉ used) :
    uniquifyName used cand counter = cand := by
  rw [uniquifyName]
  simp [h]

/-- C5 counterexample: an operation declaring an explicitly empty security
array compiles to a tool whose security requirements are the empty list —
not the document's non-empty global security, as claimed.  In JavaScript
`operation.security || globalSecurity` keeps the empty array because every
array is truthy. -/
theorem security_empty_array_keeps_empty :
    (compileOperation [] { security := some ["globalAuth"] } true [] "/x" {}
      "get" { security := .arr [], xAiDescription := some "d" }).map
        (fun p => p.1.securityRequirements) = some [] ∧
    ([] : List String) ≠ ["globalAuth"] := by
  refine ⟨?_, by simp⟩
  have hgen : generateOperationId "get" "/x" = "getX" := by rfl
  have hsan : sanitizeName "getX" = "getX" := by rfl
  simp [compileOperation, shouldIncludeOperationForMcp, normalizeBoolean,
    mkAAPOperationObject, strTruthy, resolveSecurity, hgen, hsan]

/-- C5 (amended): a compiled tool's security requirements equal the
document's global security exactly when the operation's security field is
unset (`undefined`) or `null`; a present array — the empty array included —
is kept as the operation's own list. -/
theorem security_requirements_resolution (arena : SchemaArena)
    (api : ApiDocument) (dflt : Bool) (used : List String) (path : String)
    (pathItem : PathItem) (method : String) (raw : RawOperation)
    (t : AAPMcpToolDefinition) (used' : List String)
    (hc : compileOperation arena api dflt used path pathItem method raw =
      some (t, used')) :
    t.securityRequirements =
      match raw.security with
      | .undef => api.security.getD []
      | .null => api.security.getD []
      | .arr l => l := by
  simp only [compileOperation] at hc
  repeat' split at hc
  all_goals try exact Option.noConfusion hc
  all_goals
    simp only [Option.some.injEq, Prod.mk.injEq] at hc
    obtain ⟨ht, -⟩ := hc
    subst ht
    obtain ⟨xm, oid, sm, ds, ai, dep, sec, pars, rb⟩ := raw
    cases sec <;> rfl

/-- C5 witness: an operation with no security field compiles to a tool
inheriting the document's global security. -/
theorem security_requirements_resolution_witness :
    (compileOperation [] { security := some ["globalAuth"] } true [] "/x" {}
      "get" { xAiDescription := some "d" }).map
        (fun p => p.1.securityRequirements) = some ["globalAuth"] := by
  have hgen : generateOperationId "get" "/x" = "getX" := by rfl
  have hsan : sanitizeName "getX" = "getX" := by rfl
  cases hc : compileOperation [] { security := some ["globalAuth"] } true []
      "/x" {} "get" { xAiDescription := some "d" } with
  | none =>
    exact absurd hc (by
      simp [compileOperation, shouldIncludeOperationForMcp, normalizeBoolean,
        mkAAPOperationObject, strTruthy, hgen, hsan])
  | some p =>
    have hsec := security_requirements_resolution [] _ true [] "/x" {} "get"
      _ p.1 p.2 hc
    simp [hsec]

set_option maxHeartbeats 2000000 in
/-- C7: for every compiled tool, an AI-facing description of exactly 300
characters produces no length diagnostic while 301 characters produces
exactly one ERR diagnostic with the fixed message; an empty AI-facing
description produces exactly one ERR diagnostic for absence; and the
tool's resolved description is the AI-facing description when non-empty,
else the summary, else the first paragraph of the description (split on a
blank line), else the empty string. -/
theorem ai_description_diagnostics (arena : SchemaArena) (api : ApiDocument)
    (dflt : Bool) (used : List String) (path : String) (pathItem : PathItem)
    (method : String) (raw : RawOperation) (t : AAPMcpToolDefinition)
    (used' : List String)
    (hc : compileOperation arena api dflt used path pathItem method raw =
      some (t, used')) :
    ((raw.xAiDescription.getD "").length = 300 →
      t.logs.count
        ⟨Severity.err, "x-ai-description is too long (>300 chars)"⟩ = 0) ∧
    ((raw.xAiDescription.getD "").length = 301 →
      t.logs.count
        ⟨Severity.err, "x-ai-description is too long (>300 chars)"⟩ = 1) ∧
    ((raw.xAiDescription.getD "").length = 0 →
      t.logs.count ⟨Severity.err, "no `x-ai-description` field"⟩ = 1) ∧
    t.description = resolveToolDescription (raw.xAiDescription.getD "")
      raw.summary raw.description := by
  simp only [compileOperation, mkAAPOperationObject] at hc
  repeat' split at hc
  all_goals try exact Option.noConfusion hc
  all_goals
    simp only [Option.some.injEq, Prod.mk.injEq] at hc
    obtain ⟨ht, -⟩ := hc
    subst ht
    refine ⟨fun hlen => ?_, fun hlen => ?_, fun hlen => ?_, rfl⟩ <;>
      first
        | omega
        | (simp [List.count_append, List.count_cons, List.count_nil,
            McpToolLogEntry.mk.injEq])

/-- C7 witness: an operation with no AI-facing description compiles, and
its tool carries exactly one absence diagnostic. -/
theorem ai_description_diagnostics_witness :
    (compileOperation [] {} true [] "/x" {} "get" {}).map
      (fun p =>
        p.1.logs.count ⟨Severity.err, "no `x-ai-description` field"⟩) =
      some 1 := by
  have hgen : generateOperationId "get" "/x" = "getX" := by rfl
  have hsan : sanitizeName "getX" = "getX" := by rfl
  cases hc : compileOperation [] {} true [] "/x" {} "get" {} with
  | none =>
    exact absurd hc (by
      simp [compileOperation, shouldIncludeOperationForMcp, normalizeBoolean,
        mkAAPOperationObject, strTruthy, hgen, hsan])
  | some p =>
    have h := (ai_description_diagnostics [] {} true [] "/x" {} "get" {} p.1
      p.2 hc).2.2.1 (by rfl)
    simp [h]

/-- An arena whose node `0` is self-referential (its `self` property points
back to node `0`), plus an unresolved-reference node `1`. -/
def cyclicArena : SchemaArena :=
  [(0, { type := some (.s "object"),
         properties := some [("self", .node 0)] }),
   (1, { ref := some "#/components/schemas/X" })]

/-- C8: the schema translator is total — its well-founded recursion on the
arena ids not yet on the active path terminates on every finite, possibly
cyclic graph — and (a) at a node already on the active recursion path it
stops recursing and substitutes the generic open-object schema
`{type: "object"}`, and (b) it likewise substitutes that schema for any
unresolved reference instead of fetching it. -/
theorem mapSchema_cycle_and_ref_substitution (arena : SchemaArena)
    (seen : List Nat) (i : Nat) (n : SchemaNode)
    (hlook : arena.lookup i = some n) :
    (n.ref.isSome = true →
      mapOpenApiSchemaToJsonSchema arena seen (.node i) = genericObject) ∧
    (n.ref = none → i ∈ seen →
      mapOpenApiSchemaToJsonSchema arena seen (.node i) = genericObject) := by
  constructor
  · intro href
    rw [mapOpenApiSchemaToJsonSchema.eq_def]
    split
    next heq => exact SchemaVal.noConfusion heq
    next m heq =>
      injection heq with heqi
      subst heqi
      split
      next heq2 => rw [hlook] at heq2; exact Option.noConfusion heq2
      next n2 heq2 =>
        rw [hlook] at heq2
        injection heq2 with heq2
        subst heq2
        rw [if_pos href]
  · intro href hseen
    rw [mapOpenApiSchemaToJsonSchema.eq_def]
    split
    next heq => exact SchemaVal.noConfusion heq
    next m heq =>
      injection heq with heqi
      subst heqi
      split
      next heq2 => rw [hlook] at heq2; exact Option.noConfusion heq2
      next n2 heq2 =>
        rw [hlook] at heq2
        injection heq2 with heq2
        subst heq2
        rw [if_neg (by simp [href]), dif_pos hseen]

/-- C8 witness: on the concrete cyclic arena, the node already on the path
and the unresolved reference both yield the generic object schema, and the
translation of the self-referential node terminates with the generic
object substituted at the cycle point. -/
theorem mapSchema_cycle_and_ref_substitution_witness :
    mapOpenApiSchemaToJsonSchema cyclicArena [0] (.node 0) = genericObject ∧
    mapOpenApiSchemaToJsonSchema cyclicArena [] (.node 1) = genericObject ∧
    mapOpenApiSchemaToJsonSchema cyclicArena [] (.node 0) =
      .obj (some (.s "object")) none none (some [("self", genericObject)])
        none none := by
  have h0 := mapSchema_cycle_and_ref_substitution cyclicArena [0] 0
    { type := some (.s "object"), properties := some [("self", .node 0)] }
    (by rfl)
  have h1 := mapSchema_cycle_and_ref_substitution cyclicArena [] 1
    { ref := some "#/components/schemas/X" } (by rfl)
  refine ⟨h0.2 rfl (by simp), h1.1 rfl, ?_⟩
  rw [mapOpenApiSchemaToJsonSchema.eq_def]
  split
  next heq => exact SchemaVal.noConfusion heq
  next m heq =>
    injection heq with heqi
    subst heqi
    split
    next heq2 => exact absurd heq2 (by decide)
    next n2 heq2 =>
      rw [show List.lookup (0 : Nat) cyclicArena =
        some { type := some (.s "object"),
               properties := some [("self", SchemaVal.node 0)] } from rfl]
        at heq2
      injection heq2 with heq2
      subst heq2
      rw [if_neg (by simp), dif_neg (by simp)]
      simp only [mapProps, h0.2 rfl (by simp)]
      rfl

/-- Every decimal digit character is in the name alphabet. -/
theorem digitChar_allowed (d : Nat) : isAllowedChar (digitChar d) = true := by
  unfold digitChar
  split_ifs <;> decide

/-- All characters of a decimal rendering are digit characters, hence in
the name alphabet. -/
theorem decimalDigits_allowed (n : Nat) :
    ∀ c ∈ decimalDigits n, isAllowedChar c = true := by
  induction n using Nat.strong_induction_on with
  | _ n ih =>
    rw [decimalDigits.eq_def]
    split
    · simp
    next h =>
      intro c hc
      rcases List.mem_append.mp hc with hm | hm
      · exact ih (n / 10) (Nat.div_lt_self (Nat.pos_of_ne_zero h) (by decide))
          c hm
      · have := List.mem_singleton.mp hm
        subst this
        exact digitChar_allowed _

/-- All characters of the collision counter's rendering are allowed. -/
theorem decimalString_allowed (n : Nat) :
    ∀ c ∈ (decimalString n).data, isAllowedChar c = true := by
  unfold decimalString
  split_ifs with h
  · intro c hc
    have : c = '0' := List.mem_singleton.mp hc
    subst this
    decide
  · exact decimalDigits_allowed n

/-- Collision-loop invariants: the returned name is not in the used set, is
no shorter than the candidate, and keeps the candidate's alphabet. -/
theorem uniquifyName_props (used : List String) (cand : String) (k : Nat) :
    uniquifyName used cand k ∉ used ∧
    cand.length ≤ (uniquifyName used cand k).length ∧
    ((∀ c ∈ cand.data, isAllowedChar c = true) →
      ∀ c ∈ (uniquifyName used cand k).data, isAllowedChar c = true) := by
  induction cand, k using uniquifyName.induct used with
  | case1 cand counter hmem ih =>
    have hstep : uniquifyName used cand counter =
        uniquifyName used (cand ++ "_" ++ decimalString counter)
          (counter + 1) := by
      rw [uniquifyName]
      exact dif_pos hmem
    rw [hstep]
    refine ⟨ih.1, ?_, ?_⟩
    · have h1 := uniquify_step_length cand counter
      have h2 := ih.2.1
      omega
    · intro hval
      apply ih.2.2
      intro c hc
      rw [String.data_append, String.data_append] at hc
      rcases List.mem_append.mp hc with hc | hc
      · rcases List.mem_append.mp hc with hc | hc
        · exact hval c hc
        · have : c = '_' := List.mem_singleton.mp hc
          subst this
          decide
      · exact decimalString_allowed counter c hc
  | case2 cand counter hmem =>
    rw [uniquifyName_not_mem hmem]
    exact ⟨hmem, Nat.le_refl _, fun h => h⟩

/-- Sanitized characters are always in the name alphabet. -/
theorem underscoreDisallowed_allowed (c : Char) :
    isAllowedChar (underscoreDisallowed c) = true := by
  unfold underscoreDisallowed
  split_ifs with h
  · exact h
  · decide

/-- A sanitized name only holds characters of the alphabet. -/
theorem sanitizeName_allowed (s : String) :
    ∀ c ∈ (sanitizeName s).data, isAllowedChar c = true := by
  intro c hc
  rcases List.mem_map.mp hc with ⟨a, -, rfl⟩
  exact underscoreDisallowed_allowed a

/-- Sanitization preserves length. -/
theorem sanitizeName_length (s : String) :
    (sanitizeName s).length = s.length := by
  show ((s.data.map dotToUnderscore).map underscoreDisallowed).length =
    s.data.length
  simp [List.length_map]

/-- A non-empty string has non-empty character data. -/
theorem string_ne_empty_data {s : String} (h : s ≠ "") : s.data ≠ [] := by
  intro hd
  exact h (String.ext_iff.mpr (by simp [hd]))

/-- The name produced from a non-empty base name is non-empty. -/
theorem uniquify_sanitize_nonempty (used : List String) (b : String)
    (k : Nat) (hb : ¬ b = "") :
    (uniquifyName used (sanitizeName b) k).data ≠ [] := by
  have h1 := (uniquifyName_props used (sanitizeName b) k).2.1
  rw [sanitizeName_length] at h1
  have h2 : 0 < b.length :=
    List.length_pos.mpr (string_ne_empty_data hb)
  have h3 : 0 < (uniquifyName used (sanitizeName b) k).length := by omega
  exact List.ne_nil_of_length_pos h3

/-- The name produced from any base name stays in the alphabet. -/
theorem uniquify_sanitize_allowed (used : List String) (b : String)
    (k : Nat) :
    ∀ c ∈ (uniquifyName used (sanitizeName b) k).data,
      isAllowedChar c = true :=
  (uniquifyName_props used (sanitizeName b) k).2.2 (sanitizeName_allowed b)

/-- Every successfully compiled operation emits the dedup-guaranteed fresh
name, records it into the used set, and the name is a non-empty word of
the alphabet `[A-Za-z0-9_-]`. -/
theorem compileOperation_some_names (arena : SchemaArena)
    (api : ApiDocument) (dflt : Bool) (used : List String) (path : String)
    (pathItem : PathItem) (method : String) (raw : RawOperation)
    (t : AAPMcpToolDefinition) (used' : List String)
    (hc : compileOperation arena api dflt used path pathItem method raw =
      some (t, used')) :
    used' = t.name :: used ∧ t.name ∉ used ∧ validToolName t.name := by
  simp only [compileOperation, mkAAPOperationObject] at hc
  repeat' split at hc
  all_goals try exact Option.noConfusion hc
  all_goals
    simp only [Option.some.injEq, Prod.mk.injEq] at hc
    obtain ⟨ht, hu⟩ := hc
    subst ht
    subst hu
    refine ⟨rfl, (uniquifyName_props _ _ _).1, ?_, ?_⟩
  all_goals
    first
      | (apply uniquify_sanitize_nonempty; assumption)
      | exact uniquify_sanitize_allowed _ _ _

/-- The extraction fold yields pairwise-distinct names avoiding the
incoming used-name set, all of them valid. -/
theorem extractGo_names (arena : SchemaArena) (api : ApiDocument)
    (dflt : Bool) :
    ∀ (entries : List (String × PathItem × String × RawOperation))
      (used : List String),
      (((extractGo arena api dflt entries used).map
        (fun t => t.name)).Nodup) ∧
      (∀ t ∈ extractGo arena api dflt entries used,
        validToolName t.name ∧ t.name ∉ used)
  | [], used => by simp [extractGo]
  | e :: rest, used => by
    cases hc : compileOperation arena api dflt used e.1 e.2.1 e.2.2.1
        e.2.2.2 with
    | none =>
      simp only [extractGo, hc]
      exact extractGo_names arena api dflt rest used
    | some p =>
      obtain ⟨t2, used2⟩ := p
      have hn := compileOperation_some_names arena api dflt used e.1 e.2.1
        e.2.2.1 e.2.2.2 t2 used2 hc
      have ih := extractGo_names arena api dflt rest used2
      simp only [extractGo, hc]
      constructor
      · simp only [List.map_cons, List.nodup_cons]
        refine ⟨?_, ih.1⟩
        intro hmem
        rcases List.mem_map.mp hmem with ⟨u, hu, hname⟩
        have h2 := (ih.2 u hu).2
        rw [hn.1] at h2
        exact h2 (by rw [hname]; exact List.mem_cons_self _ _)
      · intro t ht
        rcases List.mem_cons.mp ht with rfl | hmem
        · exact ⟨hn.2.2, hn.2.1⟩
        · have h2 := ih.2 t hmem
          refine ⟨h2.1, fun hmem2 => ?_⟩
          exact h2.2 (by rw [hn.1]; exact List.mem_cons_of_mem _ hmem2)

/-- C2 (amended): every tool name in any aggregated catalog is a non-empty
word over `[A-Za-z0-9_-]`, and names are unique within each single
document's extracted tool list (a later duplicate base name receives a
numeric suffix via the collision loop); uniqueness does NOT extend across
the aggregated multi-service catalog. -/
theorem tool_names_alphabet_and_per_document_unique :
    (∀ allowWrite docs, ∀ t ∈ aggregatedCatalog allowWrite docs,
      validToolName t.name) ∧
    (∀ arena api dflt,
      ((extractToolsFromApi arena api dflt).map (fun t => t.name)).Nodup) := by
  constructor
  · intro allowWrite docs t ht
    simp only [aggregatedCatalog, generateTools] at ht
    have ht2 := (List.mergeSort_perm _ _).mem_iff.mp ht
    rcases List.mem_map.mp ht2 with ⟨u, hu, rfl⟩
    rcases List.mem_flatten.mp hu with ⟨l, hl, hul⟩
    rcases List.mem_map.mp hl with ⟨d, hd, rfl⟩
    simp only [serviceFilterTools] at hul
    have hul2 := (List.mem_filter.mp hul).1
    rcases List.mem_map.mp hul2 with ⟨v, hv, rfl⟩
    rcases List.mem_map.mp hd with ⟨dd, hdd, rfl⟩
    exact ((extractGo_names dd.2.2.1 dd.2.2.2 true
      (docOperations dd.2.2.2) []).2 v hv).1
  · intro arena api dflt
    exact (extractGo_names arena api dflt (docOperations api) []).1

/-- A document holding a single `GET /x` operation with no operation id. -/
def dupDoc : ApiDocument :=
  { paths := [("/x", some { operations := [("get", {})] })] }

/-- The tool extracted from `dupDoc`. -/
def dupTool : AAPMcpToolDefinition :=
  { name := "getX"
    description := ""
    inputSchema := .obj (some (.s "object")) none none (some []) none none
    method := "get"
    pathTemplate := "/x"
    parameters := []
    executionParameters := []
    requestBodyContentType := none
    securityRequirements := []
    operationId := "getX"
    deprecated := false
    logs := [⟨Severity.warn, "no operationId key available"⟩,
             ⟨Severity.warn, "no description in OpenAPI schema"⟩,
             ⟨Severity.info, "no summary in OpenAPI schema"⟩,
             ⟨Severity.err, "no `x-ai-description` field"⟩] }

/-- Concrete evaluation of the extraction on `dupDoc`. -/
theorem extract_dupDoc : extractToolsFromApi [] dupDoc true = [dupTool] := by
  have hgen : generateOperationId "get" "/x" = "getX" := by rfl
  have hsan : sanitizeName "getX" = "getX" := by rfl
  simp [extractToolsFromApi, docOperations, extractGo, compileOperation,
    dupDoc, dupTool, httpMethods, shouldIncludeOperationForMcp,
    normalizeBoolean, mkAAPOperationObject, strTruthy, List.lookup,
    generateInputSchemaAndDetails, mergeParameters, resolveSecurity,
    resolveToolDescription, hgen, hsan]

/-- Sorting does not affect whether the catalog's names are duplicated. -/
theorem nodup_names_mergeSort_iff (l : List AAPMcpToolDefinition)
    (cmp : AAPMcpToolDefinition → AAPMcpToolDefinition → Bool) :
    (((l.mergeSort cmp).map (fun t => t.name)).Nodup) ↔
      ((l.map (fun t => t.name)).Nodup) :=
  (List.Perm.map _ (List.mergeSort_perm l cmp)).nodup_iff

/-- C2 counterexample: aggregating two services whose documents generate
the same tool name yields a catalog with a duplicated name — the used-name
set is reset per document, so uniqueness does not span the full aggregated
catalog. -/
theorem aggregated_catalog_has_duplicate_names :
    ¬ (((aggregatedCatalog false
        [("svcA", keepAllReformat, [], dupDoc),
         ("svcB", keepAllReformat, [], dupDoc)]).map
          (fun t => t.name)).Nodup) := by
  intro hnodup
  simp only [aggregatedCatalog, generateTools] at hnodup
  rw [nodup_names_mergeSort_iff] at hnodup
  have hup : strToUpper "get" = "GET" := rfl
  simp [extract_dupDoc, serviceFilterTools, keepAllReformat,
    allowedOperations, hup, dupTool] at hnodup

/-- C9 (amended): each tool's size metric in the generated catalog equals
the character count (JavaScript string `.length`) of the serialization of
`{name, description, inputSchema}` — not its UTF-8 byte length — and the
catalog is sorted by this metric in descending order. -/
theorem generateTools_size_and_sorted (allowWrite : Bool)
    (specs : List (String × (AAPMcpToolDefinition → Bool) ×
      List AAPMcpToolDefinition)) :
    (∀ t ∈ generateTools allowWrite specs,
      t.size = some (toolSizeSerialization t).length) ∧
    (generateTools allowWrite specs).Pairwise
      (fun a b => b.size.getD 0 ≤ a.size.getD 0) := by
  constructor
  · intro t ht
    simp only [generateTools] at ht
    have ht2 := (List.mergeSort_perm _ _).mem_iff.mp ht
    rcases List.mem_map.mp ht2 with ⟨u, hu, rfl⟩
    rfl
  · simp only [generateTools]
    refine List.Pairwise.imp ?_ (List.sorted_mergeSort ?_ ?_ _)
    · intro a b h
      simpa using h
    · intro a b c hab hbc
      simp only [decide_eq_true_eq] at hab hbc ⊢
      omega
    · intro a b
      simp only [Bool.or_eq_true, decide_eq_true_eq]
      omega

/-- A minimal tool whose description holds a non-ASCII character. -/
def accentTool : AAPMcpToolDefinition :=
  { mkSimpleTool "a" with description := "é" }

/-- The same tool as it appears in the generated catalog. -/
def accentToolSized : AAPMcpToolDefinition :=
  { accentTool with
    service := some "svc"
    size := some (toolSizeSerialization accentTool).length }

/-- C9 counterexample: the stored size metric is the character count of the
serialization, which differs from its UTF-8 byte length when the
description holds a non-ASCII character — `JSON.stringify(...).length`
counts string code units, not bytes. -/
theorem size_metric_is_not_byte_length :
    generateTools false [("svc", keepAllReformat, [accentTool])] =
      [accentToolSized] ∧
    accentToolSized.size =
      some (toolSizeSerialization accentToolSized).length ∧
    (toolSizeSerialization accentToolSized).length ≠
      (toolSizeSerialization accentToolSized).utf8ByteSize := by
  refine ⟨?_, rfl, by decide⟩
  simp only [generateTools]
  apply List.perm_singleton.mp
  apply List.Perm.trans (List.mergeSort_perm _ _)
  apply List.perm_singleton.mpr
  have hup : strToUpper "get" = "GET" := rfl
  simp [serviceFilterTools, keepAllReformat, allowedOperations, hup,
    accentToolSized, accentTool, mkSimpleTool, toolSizeSerialization]

end AapMcp
